import Mathlib

/-!
Verification development for the `sirius` time-series chart renderer.

Shallow embedding of the measure-rendering core:
  * `src/binary_search.rs` — a binary search that passes the probed index to
    the ordering predicate and deliberately has no early exit on `Equal`;
  * `src/measures/canvas.rs` — nearest-sample lookup (`find_closest_measure`),
    windowed visibility (`get_max_measure_value` and the `drawn` flag of
    `render_measures`), level of detail (`compute_lod`) and the coordinate
    maps (`time_to_x`, `x_to_time`);
  * `src/measures/create_measures.rs` — the fold building per-target
    `MeasureSet`s;
  * `src/measures/types.rs` — the data model.

Modelling conventions, used throughout:
  * Rust `i64` timestamps are embedded as `Int` (the claims never exercise
    `i64` overflow) and `usize` indices as `Nat`, with the release-profile
    wrapping of `index - 1` made explicit (`usize_wrapping_sub` below;
    the crate is a `wasm32` browser application, so `usize` is 32 bits wide).
  * Rust `f64` sample values are embedded as `Rat`.  The code never does
    arithmetic on values relevant to the claims — it stores them, compares
    them with `total_cmp`, and takes componentwise min/max — so on NaN-free
    inputs the `f64` order agrees with the rational order.
  * The `f64` computations of `time_to_x` / `x_to_time` are embedded as exact
    rational arithmetic; the `as i64` cast is explicit truncation toward zero.
  * Rust `Result<usize, usize>` becomes `Except Nat Nat`, `Option` stays
    `Option`, slices become `List`.
-/

set_option autoImplicit false

namespace Sirius

/-! ### Data model (src/measures/types.rs)

`MeasureSet` is one series: its samples `(timestamp ns, value)`, the display
unit, and the running summary statistics maintained by the aggregation fold.
The Rust field `end` is a Lean keyword, hence `end_`. -/

structure MeasureSet where
  measures : List (Int × Rat)
  unit : String
  min : Rat
  max : Rat
  start : Int
  end_ : Int
  deriving DecidableEq, Repr

/-! ### Binary search (src/binary_search.rs)

`binary_search_by_with_index` is the std binary search with the predicate
also receiving the probed index.  The `while size > 1` loop is embedded as
structural recursion on a fuel argument; every iteration shrinks `size` by
`half = size / 2 ≥ 1`, so fuel `data.length` (the initial `size`) is never
exhausted — `search_loop_fuel_irrelevant` below proves the embedding does
not depend on the fuel bound.  The second component of the result counts
loop iterations, which the Rust code deliberately keeps a function of
`size` alone (no early exit on `Ordering::Equal`). -/

def search_loop {α : Type} [Inhabited α] (data : List α) (f : Nat → α → Ordering) :
    Nat → Nat → Nat → Nat × Nat
  | 0, base, _ => (base, 0)
  | fuel + 1, base, size =>
    if 1 < size then
      let half := size / 2
      let mid := base + half
      let cmp := f mid (data.getD mid default)
      let rest := search_loop data f fuel (if cmp = Ordering.gt then base else mid) (size - half)
      (rest.1, rest.2 + 1)
    else
      (base, 0)

def binary_search_by_with_index {α : Type} [Inhabited α]
    (data : List α) (f : Nat → α → Ordering) : Except Nat Nat :=
  if data.length = 0 then Except.error 0
  else
    let base := (search_loop data f data.length 0 data.length).1
    let cmp := f base (data.getD base default)
    if cmp = Ordering.eq then Except.ok base
    else Except.error (base + if cmp = Ordering.lt then 1 else 0)

/-- Number of times `binary_search_by_with_index` evaluates its predicate:
one evaluation per loop iteration plus the final one after the loop
(zero on an empty slice, which returns `Err(0)` before any probe). -/
def predicate_evals {α : Type} [Inhabited α] (data : List α) (f : Nat → α → Ordering) : Nat :=
  if data.length = 0 then 0
  else (search_loop data f data.length 0 data.length).2 + 1

/-! ### Nearest-sample lookup (src/measures/canvas.rs, `find_closest_measure`) -/

/-- Release-profile semantics of `usize` subtraction `index - 1` on the
`wasm32` target: wrapping modulo `2 ^ 32`.  At `index = 0` this yields
`2 ^ 32 - 1`, which is out of bounds for every representable slice, so
`measures.get(index - 1)` is `None` there. -/
def usize_wrapping_sub_one (index : Nat) : Nat :=
  (index + (2 ^ 32 - 1)) % 2 ^ 32

/-- The ordering predicate `find_closest_measure` passes to the search:
an index whose sample lies strictly after `mouse_x_time` while its
predecessor lies strictly before is reported as an exact match; otherwise
plain `<` ordering against the probed sample's timestamp. -/
def find_closest_predicate (measures : List (Int × Rat)) (mouse_x_time : Int)
    (index : Nat) (tv : Int × Rat) : Ordering :=
  match measures.get? (usize_wrapping_sub_one index) with
  | some prev =>
    if mouse_x_time < tv.1 ∧ prev.1 < mouse_x_time then Ordering.eq
    else if tv.1 < mouse_x_time then Ordering.lt
    else Ordering.gt
  | none =>
    if tv.1 < mouse_x_time then Ordering.lt
    else Ordering.gt

def find_closest_measure (measures : List (Int × Rat)) (mouse_x_time : Int) :
    Option (Int × Rat) :=
  let res := binary_search_by_with_index measures (find_closest_predicate measures mouse_x_time)
  let index := match res with
    | Except.ok x => x
    | Except.error x => x
  measures.get? index

example : find_closest_measure [(0, 1), (100, 2), (200, 3)] 150 = some (200, 3) := by decide

example : find_closest_measure [] 42 = none := by decide

example : find_closest_measure [(0, 1)] 1 = none := by decide

example : find_closest_measure [(0, 1), (100, 2), (200, 3)] 300 = none := by decide

example : find_closest_measure [(0, 1), (100, 2), (200, 3)] 200 = some (200, 3) := by decide

/-! ### Windowed visibility (src/measures/canvas.rs)

`render_measures` (the `drawn` flag), `render_stats` (the `displayed` flag)
and `get_max_measure_value` run the same test on each sample: the sample is
kept when its own, previous, or next timestamp lies strictly inside
`(begin_ns, end_ns)`.  The previous-neighbour lookup is the same wrapping
`index - 1` as in `find_closest_measure`. -/

def sample_displayed (measures : List (Int × Rat)) (begin_ns end_ns : Int)
    (index : Nat) (time : Int) : Bool :=
  let cur := begin_ns < time && time < end_ns
  let prev := match measures.get? (usize_wrapping_sub_one index) with
    | some tv => begin_ns < tv.1 && tv.1 < end_ns
    | none => false
  let next := match measures.get? (index + 1) with
    | some tv => begin_ns < tv.1 && tv.1 < end_ns
    | none => false
  cur || prev || next

/-- Values collected by `get_max_measure_value` (`displayed_values` in the
source), in iteration order. -/
def displayed_values (measures : List (Int × Rat)) (begin_ns end_ns : Int) : List Rat :=
  (measures.enum.filter fun p => sample_displayed measures begin_ns end_ns p.1 p.2.1).map
    fun p => p.2.2

/-- `measures.iter().max_by(total_cmp)`: the maximum of a slice of values,
`None` on an empty slice.  On NaN-free data `total_cmp` is the usual order,
embedded as the order on `Rat`. -/
def find_max_measure_value (measures : List Rat) : Option Rat :=
  match measures with
  | [] => none
  | x :: xs => some (xs.foldl max x)

def get_max_measure_value (measure_set : MeasureSet) (begin_ns end_ns : Int) : Rat :=
  (find_max_measure_value (displayed_values measure_set.measures begin_ns end_ns)).getD
    measure_set.max

/-! ### Level of detail and coordinate maps (src/measures/canvas.rs) -/

/-- Embedding of `compute_lod`:
`((duration.num_milliseconds() as f64).log10() - 2.0).max(0.0) as u32`.
The `f64` steps are modelled exactly: for `m ≥ 1` the float `log10` is the
real `log10`, whose floor is `Nat.log 10 m`, and `.max(0.0)` followed by the
truncating `as u32` cast is `Nat` truncated subtraction of 2; for `m ≤ 0`
the float pipeline gives `NaN.max(0.0) = 0.0` (resp. `(-inf).max(0.0)`)
and the cast yields `0`. -/
def compute_lod (duration_ms : Int) : Nat :=
  if duration_ms ≤ 0 then 0
  else Nat.log 10 duration_ms.toNat - 2

/-- Rust `as i64` on a finite `f64`: truncation toward zero. -/
def f64_as_i64 (q : Rat) : Int :=
  if 0 ≤ q then ⌊q⌋ else -⌊-q⌋

/-- Embedding of `time_to_x` with exact rational arithmetic in place of
`f64`: `rev_factor * delta * width` with `rev_factor = 1 / (end_ns -
begin_ns)` and `delta = time - begin_ns` (both differences computed on
`i64` first, then cast). -/
def time_to_x (time begin_ns end_ns : Int) (width : Rat) : Rat :=
  let rev_factor : Rat := 1 / ((end_ns - begin_ns : Int) : Rat)
  let delta : Rat := ((time - begin_ns : Int) : Rat)
  rev_factor * delta * width

/-- Embedding of `x_to_time`: `begin_ns + (x / width * (end_ns - begin_ns))
as i64`, with the cast truncating toward zero. -/
def x_to_time (x : Rat) (begin_ns end_ns : Int) (width : Rat) : Int :=
  let rev_factor : Rat := 1 / width
  begin_ns + f64_as_i64 (rev_factor * x * ((end_ns - begin_ns : Int) : Rat))

/-! ### Aggregation fold (src/measures/create_measures.rs) -/

/-- One raw row as consumed by the fold in `create_measures_memo`.  The
source row carries `time` as an RFC 3339 string; the fold first parses it
and converts to nanoseconds (`timestamp_nanos_opt`), dropping the row when
either step fails.  The embedding carries the outcome of those two library
calls directly: `time = none` means unparseable or out of nanosecond range. -/
structure Measure where
  target : String
  time : Option Int
  value : Rat
  unit : String
  deriving DecidableEq, Repr

/-- Semantics of `HashMap::entry(k).and_modify(f).or_insert(v)` on the
association-list view of the map: modify the existing entry for `k` in
place, or append a fresh entry at the end. -/
def entry_and_modify_or_insert (target : String) (modify : MeasureSet → MeasureSet)
    (inserted : MeasureSet) : List (String × MeasureSet) → List (String × MeasureSet)
  | [] => [(target, inserted)]
  | (k, v) :: rest =>
    if k = target then (k, modify v) :: rest
    else (k, v) :: entry_and_modify_or_insert target modify inserted rest

/-- One step of the fold body of `create_measures_memo`: skip the row when
its timestamp did not parse or convert, otherwise update the target's
`MeasureSet` (running min/max/start/end, sample pushed at the back) or
seed a fresh one. -/
def fold_measure (measures_data : List (String × MeasureSet)) (measure : Measure) :
    List (String × MeasureSet) :=
  match measure.time with
  | none => measures_data
  | some time =>
    entry_and_modify_or_insert measure.target
      (fun measure_set =>
        { measure_set with
          min := min measure_set.min measure.value
          max := max measure_set.max measure.value
          start := min measure_set.start time
          end_ := max measure_set.end_ time
          measures := measure_set.measures ++ [(time, measure.value)] })
      { min := measure.value
        max := measure.value
        start := time
        end_ := time
        unit := measure.unit
        measures := [(time, measure.value)] }
      measures_data

/-- The fold of `create_measures_memo` over all rows, starting from the
empty map. -/
def create_measures_memo (measures : List Measure) : List (String × MeasureSet) :=
  measures.foldl fold_measure []

/-! ### HashMap iteration order (src/measures/types.rs)

`MeasuresData = HashMap<String, MeasureSet>` is a std `HashMap`: its
iteration order is unspecified, determined by the per-process random hasher
seed and bucket layout, not by insertion order.  Abstract model: iteration
visits the inserted keys stably sorted by a seed-dependent hash. -/

def hash_iteration_order (hash : String → Nat) (inserted_keys : List String) : List String :=
  inserted_keys.insertionSort fun a b => hash a ≤ hash b

/-- A hasher state under which `"b"` lands in an earlier bucket than `"a"`. -/
def demo_hash (s : String) : Nat :=
  if s = "a" then 1 else 0

example : hash_iteration_order demo_hash ["a", "b"] = ["b", "a"] := by decide

example : create_measures_memo
    [⟨"a", some 5, 2, "u"⟩, ⟨"a", some 3, 7, "u"⟩] =
    [("a", ⟨[(5, 2), (3, 7)], "u", 2, 7, 3, 5⟩)] := by decide

example : get_max_measure_value ⟨[(0, 1), (50, 2), (150, 3)], "u", 1, 3, 0, 150⟩ 60 140 = 3 := by
  decide

example : displayed_values [(0, 1), (50, 2), (150, 3)] 60 140 = [] := by decide

example : displayed_values [(0, 1), (50, 2), (150, 3)] 60 160 = [2, 3] := by decide

example : compute_lod 100000 = 3 := by
  have h : Nat.log 10 100000 = 5 := by
    apply Nat.log_eq_of_pow_le_of_lt_pow <;> norm_num
  rw [compute_lod]
  rw [if_neg (by norm_num), show Int.toNat 100000 = 100000 from rfl, h]

/-! ### Properties of the embedded binary-search loop -/

/-- The fuel bound used in the embedding is invisible: any fuel at least
`size` gives the same result, because each iteration consumes one unit of
fuel while `size` shrinks by `size / 2 ≥ 1`.  This justifies embedding the
Rust `while size > 1` loop with fuel `data.length`. -/
theorem search_loop_fuel_irrelevant {α : Type} [Inhabited α] (data : List α)
    (f : Nat → α → Ordering) :
    ∀ size fuel fuel' base : Nat, size ≤ fuel → size ≤ fuel' →
      search_loop data f fuel base size = search_loop data f fuel' base size := by
  intro size
  induction size using Nat.strong_induction_on with
  | _ size ih =>
    intro fuel fuel' base hf hf'
    match fuel, fuel' with
    | 0, 0 => rfl
    | 0, fuel' + 1 =>
      have hs : size = 0 := Nat.le_zero.mp hf
      subst hs
      simp [search_loop]
    | fuel + 1, 0 =>
      have hs : size = 0 := Nat.le_zero.mp hf'
      subst hs
      simp [search_loop]
    | fuel + 1, fuel' + 1 =>
      simp only [search_loop]
      by_cases h : 1 < size
      · simp only [if_pos h]
        have hhalf : 1 ≤ size / 2 := Nat.one_le_div_iff (by omega) |>.mpr (by omega)
        rw [ih (size - size / 2) (by omega) fuel fuel' _ (by omega) (by omega)]
      · simp only [if_neg h]

/-- The loop's final `base` stays strictly below `base + size`. -/
theorem search_loop_fst_lt {α : Type} [Inhabited α] (data : List α)
    (f : Nat → α → Ordering) :
    ∀ fuel base size : Nat, 1 ≤ size →
      (search_loop data f fuel base size).1 < base + size := by
  intro fuel
  induction fuel with
  | zero =>
    intro base size h
    simp only [search_loop]
    omega
  | succ fuel ih =>
    intro base size h
    simp only [search_loop]
    by_cases h1 : 1 < size
    · simp only [if_pos h1]
      have hih := ih (if f (base + size / 2) (data.getD (base + size / 2) default) =
        Ordering.gt then base else base + size / 2) (size - size / 2) (by omega)
      by_cases hc : f (base + size / 2) (data.getD (base + size / 2) default) = Ordering.gt <;>
        simp only [hc, if_pos, if_neg, if_true, if_false] at hih ⊢ <;> omega
    · simp only [if_neg h1]
      omega

/-- Loop iteration count, as a function of fuel and `size` alone. -/
def search_loop_count : Nat → Nat → Nat
  | 0, _ => 0
  | fuel + 1, size => if 1 < size then search_loop_count fuel (size - size / 2) + 1 else 0

/-- The iteration count of the embedded loop never depends on the data or
the predicate — only on fuel and `size`. -/
theorem search_loop_snd {α : Type} [Inhabited α] (data : List α) (f : Nat → α → Ordering) :
    ∀ fuel base size : Nat, (search_loop data f fuel base size).2 =
      search_loop_count fuel size := by
  intro fuel
  induction fuel with
  | zero => intro base size; rfl
  | succ fuel ih =>
    intro base size
    simp only [search_loop, search_loop_count]
    by_cases h1 : 1 < size
    · simp only [if_pos h1, ih]
    · simp only [if_neg h1]

/-- When no probed index ever compares `Greater`, the loop marches `base`
to the right end of the window: the final base is `base + size - 1`. -/
theorem search_loop_fst_all_le {α : Type} [Inhabited α] (data : List α)
    (f : Nat → α → Ordering)
    (hf : ∀ i, i < data.length → f i (data.getD i default) ≠ Ordering.gt) :
    ∀ fuel base size : Nat, 1 ≤ size → size ≤ fuel → base + size ≤ data.length →
      (search_loop data f fuel base size).1 = base + size - 1 := by
  intro fuel
  induction fuel with
  | zero => intro base size h1 h2 _; omega
  | succ fuel ih =>
    intro base size h1 h2 hlen
    simp only [search_loop]
    by_cases hs : 1 < size
    · simp only [if_pos hs]
      have hhalf : 1 ≤ size / 2 := Nat.one_le_div_iff (by omega) |>.mpr (by omega)
      have hmid : base + size / 2 < data.length := by omega
      have hcmp := hf (base + size / 2) hmid
      rw [if_neg hcmp]
      rw [ih (base + size / 2) (size - size / 2) (by omega) (by omega) (by omega)]
      omega
    · simp only [if_neg hs]
      omega

/-! ### Properties of the nearest-sample predicate -/

/-- A sample strictly before the query time always compares `Less`,
whatever the neighbour lookup sees. -/
theorem find_closest_predicate_of_lt (m : List (Int × Rat)) (T : Int) (i : Nat)
    (tv : Int × Rat) (h : tv.1 < T) : find_closest_predicate m T i tv = Ordering.lt := by
  have hn : ¬ T < tv.1 := not_lt.mpr h.le
  rcases hp : m.get? (usize_wrapping_sub_one i) with _ | prev <;>
      simp only [find_closest_predicate, hp] <;>
    simp [h, hn]

/-- Conversely, `Less` is only ever reported for a sample strictly before
the query time. -/
theorem find_closest_predicate_lt_imp (m : List (Int × Rat)) (T : Int) (i : Nat)
    (tv : Int × Rat) (h : find_closest_predicate m T i tv = Ordering.lt) : tv.1 < T := by
  rcases hp : m.get? (usize_wrapping_sub_one i) with _ | prev <;>
      simp only [find_closest_predicate, hp] at h <;>
    split_ifs at h with h1 h2 <;>
    first
      | assumption
      | exact absurd h (by decide)

/-- In a sequence whose timestamps are sorted ascending, every sample's
timestamp is bounded by the last one's. -/
theorem pairwise_fst_le_getLast (l : List (Int × Rat))
    (h : l.Pairwise (fun p q => p.1 ≤ q.1)) (hne : l ≠ []) (i : Nat) (hi : i < l.length) :
    (l.get ⟨i, hi⟩).1 ≤ (l.getLast hne).1 := by
  rw [List.getLast_eq_get]
  rcases Nat.lt_or_ge i (l.length - 1) with hlt | hge
  · exact List.pairwise_iff_get.mp h ⟨i, hi⟩ ⟨l.length - 1, by omega⟩ hlt
  · have : i = l.length - 1 := by omega
    subst this
    exact le_refl _

/-- An exact match is only ever reported for a sample strictly after the
query time. -/
theorem find_closest_predicate_eq_imp (m : List (Int × Rat)) (T : Int) (i : Nat)
    (tv : Int × Rat) (h : find_closest_predicate m T i tv = Ordering.eq) : T < tv.1 := by
  rcases hp : m.get? (usize_wrapping_sub_one i) with _ | prev <;>
      simp only [find_closest_predicate, hp] at h <;>
    split_ifs at h with h1 h2 <;>
    first
      | exact h1.1
      | exact absurd h (by decide)

/-- Nearest-sample lookup on a non-empty sorted sequence: the result is
`none` exactly when the query time lies strictly after the last sample. -/
theorem find_closest_measure_none_aux (l : List (Int × Rat)) (T : Int) (hne : l ≠ [])
    (hsorted : l.Pairwise fun p q => p.1 ≤ q.1) :
    (find_closest_measure l T = none ↔ (l.getLast hne).1 < T) := by
  have hlenpos : 0 < l.length := List.length_pos.mpr hne
  have hlen0 : ¬ l.length = 0 := by omega
  have hsome : ∀ j, j < l.length → l.get? j ≠ none := by
    intro j hj
    rw [List.get?_eq_get hj]
    simp
  have hgd : ∀ (j : Nat) (hj : j < l.length), l.getD j default = l.get ⟨j, hj⟩ := by
    intro j hj
    rw [List.getD_eq_get?, List.get?_eq_get hj]
    rfl
  simp only [find_closest_measure, binary_search_by_with_index]
  rw [if_neg hlen0]
  set b := (search_loop l (find_closest_predicate l T) l.length 0 l.length).1 with hb
  have hblt : b < l.length := by
    have := search_loop_fst_lt l (find_closest_predicate l T) l.length 0 l.length
      (by omega)
    omega
  have hmarch : (l.getLast hne).1 < T →
      b = l.length - 1 ∧
        find_closest_predicate l T b (l.getD b default) = Ordering.lt := by
    intro hlast
    have hall : ∀ i, i < l.length →
        find_closest_predicate l T i (l.getD i default) = Ordering.lt := by
      intro i hi
      apply find_closest_predicate_of_lt
      rw [hgd i hi]
      exact lt_of_le_of_lt (pairwise_fst_le_getLast l hsorted hne i hi) hlast
    have hb' : b = 0 + l.length - 1 := by
      rw [hb]
      exact search_loop_fst_all_le l _
        (fun i hi => by rw [hall i hi]; decide) l.length 0 l.length (by omega) le_rfl
        (by omega)
    exact ⟨by omega, hall b (by omega)⟩
  by_cases he : find_closest_predicate l T b (l.getD b default) = Ordering.eq
  · rw [if_pos he]
    show l.get? b = none ↔ _
    have hTb : T < (l.getD b default).1 := find_closest_predicate_eq_imp _ _ _ _ he
    rw [hgd b hblt] at hTb
    constructor
    · intro hnone
      exact absurd hnone (hsome b hblt)
    · intro hlast
      have hle := pairwise_fst_le_getLast l hsorted hne b hblt
      omega
  · rw [if_neg he]
    by_cases hlt : find_closest_predicate l T b (l.getD b default) = Ordering.lt
    · rw [if_pos hlt]
      have hTb : (l.getD b default).1 < T := find_closest_predicate_lt_imp _ _ _ _ hlt
      rw [hgd b hblt] at hTb
      rcases Nat.lt_or_ge (b + 1) l.length with hb1 | hb1
      · show l.get? (b + 1) = none ↔ _
        constructor
        · intro hnone
          exact absurd hnone (hsome (b + 1) hb1)
        · intro hlast
          have := hmarch hlast
          omega
      · show l.get? (b + 1) = none ↔ _
        constructor
        · intro _
          rw [List.getLast_eq_get]
          have hfin : (⟨l.length - 1, by omega⟩ : Fin l.length) = ⟨b, hblt⟩ :=
            Fin.ext (by simp; omega)
          rw [hfin]
          exact hTb
        · intro _
          exact List.get?_eq_none.mpr (by omega)
    · rw [if_neg hlt]
      show l.get? (b + 0) = none ↔ _
      constructor
      · intro hnone
        exact absurd hnone (hsome (b + 0) (by omega))
      · intro hlast
        exact absurd (hmarch hlast).2 hlt

/-! ### Claims -/

/-- C1: for the sample sequence `[(0,1), (100,2), (200,3)]` and query time
`150`, the nearest-sample search returns `(200, 3)` — the first sample
after the crossing point — and not the numerically nearer `(100, 2)`. -/
theorem claim_C1_tie_break :
    find_closest_measure [(0, 1), (100, 2), (200, 3)] 150 = some (200, 3) ∧
      find_closest_measure [(0, 1), (100, 2), (200, 3)] 150 ≠ some (100, 2) := by
  decide

/-- C2 counterexample: a non-empty ascending sequence on which the
nearest-sample search nevertheless returns `none` — the query time `1`
lies strictly after the single sample at time `0`, the loop rests on the
last index, compares `Less`, and the resolved insertion point `1` is out
of bounds.  This refutes "returns none if and only if the sequence is
empty". -/
theorem claim_C2_counterexample :
    ([(0, 1)] : List (Int × Rat)) ≠ [] ∧
      List.Pairwise (fun p q : Int × Rat => p.1 ≤ q.1) [(0, 1)] ∧
      find_closest_measure [(0, 1)] 1 = none := by
  refine ⟨by decide, by decide, by decide⟩

/-- C2 (amended): on a sequence sorted ascending by timestamp, the
nearest-sample lookup returns `none` iff the sequence is empty or the
query time lies strictly after the last sample's timestamp; in every
other case the resolved index is in bounds and the `(time, value)` pair at
that index is returned. -/
theorem claim_C2_none_iff (l : List (Int × Rat)) (T : Int)
    (hsorted : l.Pairwise fun p q => p.1 ≤ q.1) :
    find_closest_measure l T = none ↔ ∀ p ∈ l.getLast?, p.1 < T := by
  rcases eq_or_ne l [] with rfl | hne
  · simp [find_closest_measure, binary_search_by_with_index]
  · rw [find_closest_measure_none_aux l T hne hsorted, List.getLast?_eq_getLast _ hne]
    simp

/-- C2 witness: the amended statement evaluated on a concrete sorted
sequence (query beyond the last sample, result `none`). -/
theorem claim_C2_witness :
    List.Pairwise (fun p q : Int × Rat => p.1 ≤ q.1) [(0, 1), (100, 2)] ∧
      (find_closest_measure [(0, 1), (100, 2)] 300 = none ↔
        ∀ p ∈ ([(0, 1), (100, 2)] : List (Int × Rat)).getLast?, p.1 < 300) :=
  ⟨by decide, claim_C2_none_iff _ _ (by decide)⟩

/-- C4: `MeasuresData` is a std `HashMap`, whose iteration order follows
the hasher, not insertion order: under a hasher state that places `"b"`
before `"a"`, the keys inserted in order `["a", "b"]` are visited as
`["b", "a"]` — the first-seen target is not drawn first. -/
theorem claim_C4_hash_order :
    hash_iteration_order demo_hash ["a", "b"] = ["b", "a"] ∧
      hash_iteration_order demo_hash ["a", "b"] ≠ ["a", "b"] := by
  decide

/-- C8: the number of predicate evaluations performed by
`binary_search_by_with_index` is a function of the sequence length alone:
any two sequences of equal length, searched with any two predicates,
produce exactly the same count (the loop has no early exit on `Equal`). -/
theorem claim_C8_step_count {α β : Type} [Inhabited α] [Inhabited β]
    (data1 : List α) (data2 : List β)
    (f1 : Nat → α → Ordering) (f2 : Nat → β → Ordering)
    (h : data1.length = data2.length) :
    predicate_evals data1 f1 = predicate_evals data2 f2 := by
  unfold predicate_evals
  simp only [search_loop_snd]
  rw [h]

/-- C8 witness: two unrelated length-3 sequences with constant-`Less` and
constant-`Greater` predicates get the same number of probes. -/
theorem claim_C8_witness :
    ([(1 : Int), 2, 3]).length = (["x", "y", "z"]).length ∧
      predicate_evals [(1 : Int), 2, 3] (fun _ _ => Ordering.lt) =
        predicate_evals ["x", "y", "z"] (fun _ _ => Ordering.gt) :=
  ⟨rfl, claim_C8_step_count _ _ _ _ rfl⟩

/-- C10: at candidate index `0`, the previous-neighbour lookup
`measures.get(index - 1)` computes the wrapped index `2^32 - 1`, which is
out of bounds for every representable slice, so the lookup yields no
neighbour and the predicate falls through to the plain less/greater
comparison — no out-of-bounds access or abort. -/
theorem claim_C10_prev_of_zero (measures : List (Int × Rat)) (T : Int) (tv : Int × Rat)
    (hlen : measures.length < 2 ^ 32) :
    measures.get? (usize_wrapping_sub_one 0) = none ∧
      find_closest_predicate measures T 0 tv =
        (if tv.1 < T then Ordering.lt else Ordering.gt) := by
  have h0 : usize_wrapping_sub_one 0 = 2 ^ 32 - 1 := by norm_num [usize_wrapping_sub_one]
  have hnone : measures.get? (usize_wrapping_sub_one 0) = none := by
    apply List.get?_eq_none.mpr
    rw [h0]
    omega
  refine ⟨hnone, ?_⟩
  simp only [find_closest_predicate, hnone]

/-- C10 witness: the statement evaluated on a concrete one-sample
sequence. -/
theorem claim_C10_witness :
    ([((0 : Int), (1 : Rat))]).length < 2 ^ 32 ∧
      (([((0 : Int), (1 : Rat))]).get? (usize_wrapping_sub_one 0) = none ∧
        find_closest_predicate [((0 : Int), (1 : Rat))] 5 0 (0, 1) =
          (if (0 : Int) < 5 then Ordering.lt else Ordering.gt)) :=
  ⟨by norm_num, claim_C10_prev_of_zero _ _ _ (by norm_num)⟩

/-- C3 counterexample: with samples `[(0,1), (50,2), (150,3)]` and the
strictly exclusive window `(60, 140)` no timestamp at all lies strictly
inside the window, so the sample at time `50` fails the
windowed-visibility test, no value is collected, and the visible-max
computation falls back to the series' global `max` — refuting the claim
that the sample at `50` is included and its value `2` considered. -/
theorem claim_C3_counterexample :
    sample_displayed [(0, 1), (50, 2), (150, 3)] 60 140 1 50 = false ∧
      displayed_values [(0, 1), (50, 2), (150, 3)] 60 140 = [] ∧
      get_max_measure_value ⟨[(0, 1), (50, 2), (150, 3)], "u", 1, 3, 0, 150⟩ 60 140 = 3 := by
  decide

/-- C3 (amended): with the window widened to `(60, 160)` — so that the
next neighbour's timestamp `150` lies strictly inside — the sample at
time `50` passes the windowed-visibility test through its next
neighbour, hence is included in the drawn polyline, and its value `2` is
among those considered by the visible-max computation. -/
theorem claim_C3_slack :
    sample_displayed [(0, 1), (50, 2), (150, 3)] 60 160 1 50 = true ∧
      (2 : Rat) ∈ displayed_values [(0, 1), (50, 2), (150, 3)] 60 160 := by
  decide

/-- C5 counterexample: a duration of 100 seconds (100000 ms) has
level-of-detail `3 = max(0, floor(log10 100000) - 2)`, not `0` — refuting
"computeLod returns 0 for every duration ≤ ~100 s". -/
theorem claim_C5_counterexample :
    compute_lod 100000 = 3 ∧ compute_lod 100000 ≠ 0 := by
  have h : compute_lod 100000 = 3 := by
    have hlog : Nat.log 10 100000 = 5 := by
      apply Nat.log_eq_of_pow_le_of_lt_pow <;> norm_num
    rw [compute_lod, if_neg (by norm_num), show Int.toNat 100000 = 100000 from rfl, hlog]
  exact ⟨h, by rw [h]; norm_num⟩

/-- C5 (amended): for every positive duration, `computeLod` equals
`max(0, floor(log10 durationMs) - 2)` — stated with `Int.log`, the floor
of the real base-10 logarithm on positive rationals — and in particular
it is `0` exactly for durations under one second (`durationMs < 1000`),
not for durations up to ~100 s. -/
theorem claim_C5_lod_formula (duration_ms : Int) (h : 0 < duration_ms) :
    (compute_lod duration_ms : Int) = max 0 (Int.log 10 ((duration_ms : Rat)) - 2) ∧
      (compute_lod duration_ms = 0 ↔ duration_ms < 1000) := by
  obtain ⟨n, rfl⟩ : ∃ n : Nat, duration_ms = (n : Int) :=
    ⟨duration_ms.toNat, (Int.toNat_of_nonneg h.le).symm⟩
  have hn : 0 < n := by exact_mod_cast h
  have hcast : (((n : Int)) : Rat) = (n : Rat) := by push_cast; rfl
  have hlog : Int.log 10 ((n : Int) : Rat) = (Nat.log 10 n : Int) := by
    rw [hcast]
    exact Int.log_natCast 10 n
  have htoNat : ((n : Int)).toNat = n := by simp
  constructor
  · rw [compute_lod, if_neg (by omega), htoNat, hlog]
    omega
  · rw [compute_lod, if_neg (by omega), htoNat]
    have h3 : n < 10 ^ 3 ↔ Nat.log 10 n < 3 :=
      Nat.lt_pow_iff_log_lt (by norm_num) (by omega)
    norm_num at h3
    omega

/-- C5 witness: the amended statement evaluated at 500 ms. -/
theorem claim_C5_witness :
    (0 : Int) < 500 ∧
      ((compute_lod 500 : Int) = max 0 (Int.log 10 ((500 : Int) : Rat) - 2) ∧
        (compute_lod 500 = 0 ↔ (500 : Int) < 1000)) :=
  ⟨by norm_num, claim_C5_lod_formula 500 (by norm_num)⟩

/-- C7: `computeLod` is monotone non-decreasing in the duration. -/
theorem claim_C7_lod_mono (d1 d2 : Int) (h : d1 < d2) :
    compute_lod d1 ≤ compute_lod d2 := by
  rw [compute_lod, compute_lod]
  split_ifs with h1 h2
  · exact le_refl 0
  · exact Nat.zero_le _
  · omega
  · exact Nat.sub_le_sub_right (Nat.log_mono_right (Int.toNat_le_toNat h.le)) 2

/-- C7 witness: monotonicity evaluated at 5 ms < 2000 ms. -/
theorem claim_C7_witness : (5 : Int) < 2000 ∧ compute_lod 5 ≤ compute_lod 2000 :=
  ⟨by norm_num, claim_C7_lod_mono 5 2000 (by norm_num)⟩

/-- C6: round-trip of the coordinate maps: for any `x` in `[0, width]`,
with `end_ns > begin_ns` and `width > 0`, mapping `x` to a time and back
lands within the pixel width of one nanosecond, `width / (end_ns -
begin_ns)` — exactly the error introduced by truncating the intermediate
time to integer nanoseconds. -/
theorem claim_C6_round_trip (x width : Rat) (begin_ns end_ns : Int)
    (hw : 0 < width) (hx0 : 0 ≤ x) (hxw : x ≤ width) (hbe : begin_ns < end_ns) :
    |time_to_x (x_to_time x begin_ns end_ns width) begin_ns end_ns width - x| ≤
      width / ((end_ns - begin_ns : Int) : Rat) := by
  have hD0 : (0 : Rat) < ((end_ns - begin_ns : Int) : Rat) := by
    exact_mod_cast sub_pos.mpr hbe
  set D : Rat := ((end_ns - begin_ns : Int) : Rat) with hD
  set v : Rat := 1 / width * x * D with hv
  have hv0 : 0 ≤ v :=
    mul_nonneg (mul_nonneg (le_of_lt (one_div_pos.mpr hw)) hx0) (le_of_lt hD0)
  have hxt : x_to_time x begin_ns end_ns width = begin_ns + ⌊v⌋ := by
    simp only [x_to_time, f64_as_i64, ← hD, ← hv]
    rw [if_pos hv0]
  have hxv : x = v / D * width := by
    rw [hv]
    field_simp
    ring
  have htx : time_to_x (begin_ns + ⌊v⌋) begin_ns end_ns width = (⌊v⌋ : Rat) * width / D := by
    simp only [time_to_x, ← hD]
    have hcast : ((begin_ns + ⌊v⌋ - begin_ns : Int) : Rat) = ((⌊v⌋ : Int) : Rat) := by
      push_cast
      ring
    rw [hcast]
    ring
  rw [hxt, htx]
  have key : (⌊v⌋ : Rat) * width / D - x = ((⌊v⌋ : Rat) - v) * (width / D) := by
    rw [hxv]
    ring
  rw [key, abs_mul, abs_of_pos (div_pos hw hD0)]
  have h1 : |(⌊v⌋ : Rat) - v| ≤ 1 := by
    rw [abs_le]
    constructor
    · linarith [Int.lt_floor_add_one v]
    · linarith [Int.floor_le v]
  calc |(⌊v⌋ : Rat) - v| * (width / D)
      ≤ 1 * (width / D) := mul_le_mul_of_nonneg_right h1 (le_of_lt (div_pos hw hD0))
    _ = width / D := one_mul _

/-- C6 witness: the round trip evaluated at `x = 1`, `width = 2`, window
`[0, 4]` nanoseconds. -/
theorem claim_C6_witness :
    (0 : Rat) < 2 ∧ (0 : Rat) ≤ 1 ∧ (1 : Rat) ≤ 2 ∧ (0 : Int) < 4 ∧
      |time_to_x (x_to_time 1 0 4 2) 0 4 2 - 1| ≤ 2 / ((4 - 0 : Int) : Rat) :=
  ⟨by norm_num, by norm_num, by norm_num, by norm_num,
    claim_C6_round_trip 1 2 0 4 (by norm_num) (by norm_num) (by norm_num) (by norm_num)⟩

/-! ### Aggregation invariant helpers -/

/-- `entry.and_modify(f).or_insert(v)` preserves any per-set invariant
that `f` preserves and the seed satisfies. -/
theorem entry_and_modify_or_insert_forall (target : String)
    (modify : MeasureSet → MeasureSet) (inserted : MeasureSet)
    (P : MeasureSet → Prop) (hmod : ∀ s, P s → P (modify s)) (hins : P inserted) :
    ∀ l : List (String × MeasureSet), (∀ p ∈ l, P p.2) →
      ∀ p ∈ entry_and_modify_or_insert target modify inserted l, P p.2 := by
  intro l
  induction l with
  | nil =>
    intro _ p hp
    simp only [entry_and_modify_or_insert, List.mem_singleton] at hp
    rw [hp]
    exact hins
  | cons head tail ih =>
    intro hl p hp
    obtain ⟨k, v⟩ := head
    simp only [entry_and_modify_or_insert] at hp
    by_cases hk : k = target
    · rw [if_pos hk] at hp
      rcases List.mem_cons.mp hp with h1 | h1
      · rw [h1]
        exact hmod v (hl (k, v) (by simp))
      · exact hl p (List.mem_cons_of_mem _ h1)
    · rw [if_neg hk] at hp
      rcases List.mem_cons.mp hp with h1 | h1
      · rw [h1]
        exact hl (k, v) (by simp)
      · exact ih (fun q hq => hl q (List.mem_cons_of_mem _ hq)) p h1

/-- The aggregation fold preserves any per-set invariant that survives
both the `and_modify` update and the `or_insert` seed. -/
theorem fold_measure_forall (P : MeasureSet → Prop)
    (hmod : ∀ (t : Int) (val : Rat) (s : MeasureSet), P s →
      P { s with
            min := min s.min val
            max := max s.max val
            start := min s.start t
            end_ := max s.end_ t
            measures := s.measures ++ [(t, val)] })
    (hins : ∀ (t : Int) (val : Rat) (u : String),
      P { min := val, max := val, start := t, end_ := t, unit := u,
            measures := [(t, val)] }) :
    ∀ (rows : List Measure) (acc : List (String × MeasureSet)),
      (∀ p ∈ acc, P p.2) → ∀ p ∈ rows.foldl fold_measure acc, P p.2 := by
  intro rows
  induction rows with
  | nil =>
    intro acc h
    simpa using h
  | cons r rest ih =>
    intro acc h
    rw [List.foldl_cons]
    apply ih
    rcases hr : r.time with _ | t
    · simpa [fold_measure, hr] using h
    · simp only [fold_measure, hr]
      exact entry_and_modify_or_insert_forall _ _ _ P (hmod t r.value) (hins t r.value r.unit)
        acc h

/-- C9: after folding any sequence of rows, every `MeasureSet` in the
resulting mapping satisfies the aggregation invariant: each folded value
lies between the running `min` and `max`, each folded timestamp between
`start` and `end`, and the sample list is non-empty.  (Rows whose
timestamps failed to parse are skipped by the fold and do not weaken the
invariant.) -/
theorem claim_C9_fold_invariant (rows : List Measure) (target : String) (ms : MeasureSet)
    (hmem : (target, ms) ∈ create_measures_memo rows) :
    (∀ tv ∈ ms.measures,
        ms.min ≤ tv.2 ∧ tv.2 ≤ ms.max ∧ ms.start ≤ tv.1 ∧ tv.1 ≤ ms.end_) ∧
      ms.measures ≠ [] := by
  have main := fold_measure_forall
    (fun s => (∀ tv ∈ s.measures,
        s.min ≤ tv.2 ∧ tv.2 ≤ s.max ∧ s.start ≤ tv.1 ∧ tv.1 ≤ s.end_) ∧
      s.measures ≠ [])
    ?hmod ?hins rows [] (by simp) (target, ms) hmem
  case hmod =>
    intro t val s hs
    dsimp only at *
    constructor
    · intro tv htv
      rcases List.mem_append.mp htv with h1 | h1
      · obtain ⟨hs1, _⟩ := hs
        obtain ⟨ha, hb, hc, hd⟩ := hs1 tv h1
        exact ⟨le_trans (min_le_left _ _) ha, le_trans hb (le_max_left _ _),
          le_trans (min_le_left _ _) hc, le_trans hd (le_max_left _ _)⟩
      · rw [List.mem_singleton.mp h1]
        exact ⟨min_le_right _ _, le_max_right _ _, min_le_right _ _, le_max_right _ _⟩
    · simp
  case hins =>
    intro t val u
    dsimp only
    refine ⟨?_, by simp⟩
    intro tv htv
    rw [List.mem_singleton.mp htv]
    exact ⟨le_refl _, le_refl _, le_refl _, le_refl _⟩
  exact main

/-- C9 witness: the invariant evaluated on a concrete two-row fold for
target `"a"` (values 2 and 7, timestamps 5 and 3). -/
theorem claim_C9_witness :
    (("a", (⟨[(5, 2), (3, 7)], "u", 2, 7, 3, 5⟩ : MeasureSet)) ∈
        create_measures_memo [⟨"a", some 5, 2, "u"⟩, ⟨"a", some 3, 7, "u"⟩]) ∧
      ((∀ tv ∈ (⟨[(5, 2), (3, 7)], "u", 2, 7, 3, 5⟩ : MeasureSet).measures,
          (⟨[(5, 2), (3, 7)], "u", 2, 7, 3, 5⟩ : MeasureSet).min ≤ tv.2 ∧
            tv.2 ≤ (⟨[(5, 2), (3, 7)], "u", 2, 7, 3, 5⟩ : MeasureSet).max ∧
            (⟨[(5, 2), (3, 7)], "u", 2, 7, 3, 5⟩ : MeasureSet).start ≤ tv.1 ∧
            tv.1 ≤ (⟨[(5, 2), (3, 7)], "u", 2, 7, 3, 5⟩ : MeasureSet).end_) ∧
        (⟨[(5, 2), (3, 7)], "u", 2, 7, 3, 5⟩ : MeasureSet).measures ≠ []) :=
  ⟨by decide,
    claim_C9_fold_invariant [⟨"a", some 5, 2, "u"⟩, ⟨"a", some 3, 7, "u"⟩] "a"
      ⟨[(5, 2), (3, 7)], "u", 2, 7, 3, 5⟩ (by decide)⟩

end Sirius
